import Mathlib

/-!
# Verification of the recon repository's core engine

A shallow embedding of the state-accumulation and orchestration core of the
repository: the canonical-merge/dedup store (`src/core/project.py`), the
token-bucket rate limiter (`src/core/rate_limiter.py`), and the stage
orchestration and incremental target selection (`src/modules/recon.py`).

Files are modelled as lists of lines (`List String`); a file that may be
absent is `Option (List String)`.  Python's `str.strip()` is modelled by
`pyStrip`, which removes whitespace characters from both ends of the
character list underlying the string.  Machine time is modelled by `ℚ`.
-/

namespace Recon

/-! ## Python string primitives -/

/-- Whitespace test used by Python's `str.strip()`. -/
def isSpace (c : Char) : Bool := c.isWhitespace

/-- Remove leading and trailing whitespace from a character list. -/
def stripChars (l : List Char) : List Char :=
  ((l.dropWhile isSpace).reverse.dropWhile isSpace).reverse

/-- Python's `s.strip()`. -/
def pyStrip (s : String) : String := String.mk (stripChars s.data)

/-- `line.strip()` followed by the emptiness test used throughout
`src/core/project.py`: `none` when the stripped line is empty (the line is
skipped), otherwise the stripped line. -/
def stripNonempty (s : String) : Option String :=
  let t := pyStrip s
  if t = "" then none else some t

/-- The stripped non-empty lines of a line list, in order.  This is the
content actually written by `write_lines` / `append_lines`, and the set of
keys put into `existing_set` by `compute_new_lines`. -/
def cleanLines (ls : List String) : List String := ls.filterMap stripNonempty

/-! ### Strip lemmas -/

theorem dropWhile_dropWhile (p : Char → Bool) (l : List Char) :
    (l.dropWhile p).dropWhile p = l.dropWhile p := by
  induction l with
  | nil => rfl
  | cons a t ih =>
    by_cases h : p a
    · simp [List.dropWhile, h, ih]
    · simp [List.dropWhile, h]

theorem dropWhile_head_false (p : Char → Bool) (l : List Char) (a : Char) (t : List Char)
    (h : l.dropWhile p = a :: t) : p a = false := by
  induction l with
  | nil => simp [List.dropWhile] at h
  | cons b s ih =>
    by_cases hb : p b
    · simp [List.dropWhile, hb] at h; exact ih h
    · simp [List.dropWhile, hb] at h
      obtain ⟨rfl, _⟩ := h
      simpa using hb

theorem dropWhile_eq_self_of_head (p : Char → Bool) (l : List Char)
    (h : ∀ a t, l = a :: t → p a = false) : l.dropWhile p = l := by
  cases l with
  | nil => rfl
  | cons a t => simp [List.dropWhile, h a t rfl]

/-- `stripChars` is idempotent. -/
theorem stripChars_stripChars (l : List Char) :
    stripChars (stripChars l) = stripChars l := by
  unfold stripChars
  set A := l.dropWhile isSpace with hA
  set B := A.reverse.dropWhile isSpace with hB
  -- left end of `B.reverse` is the head of `A` (when nonempty): a non-space
  have hBsuffix : B <:+ A.reverse := by rw [hB]; exact List.dropWhile_suffix _
  have hprefix : B.reverse <+: A := by
    have h2 : B.reverse <+: A.reverse.reverse := List.reverse_prefix.mpr hBsuffix
    rwa [List.reverse_reverse] at h2
  have h1 : (B.reverse).dropWhile isSpace = B.reverse := by
    apply dropWhile_eq_self_of_head
    intro a t hat
    obtain ⟨u, hu⟩ := hprefix
    rw [hat] at hu
    exact dropWhile_head_false isSpace l a (t ++ u) (by rw [← hA, ← hu]; simp)
  rw [h1, List.reverse_reverse, dropWhile_dropWhile]

/-- `pyStrip` is idempotent. -/
theorem pyStrip_pyStrip (s : String) : pyStrip (pyStrip s) = pyStrip s := by
  unfold pyStrip
  exact congrArg String.mk (stripChars_stripChars s.data)

/-- A string produced by `stripNonempty` is already stripped and non-empty,
so `stripNonempty` fixes it. -/
theorem stripNonempty_of_mem (s t : String) (h : stripNonempty s = some t) :
    stripNonempty t = some t := by
  unfold stripNonempty at h ⊢
  by_cases he : pyStrip s = ""
  · simp [he] at h
  · simp [he] at h
    subst h
    simp [pyStrip_pyStrip, he]

/-- On a list every element of which is stripped and non-empty, `cleanLines`
is the identity. -/
theorem cleanLines_eq_self (ls : List String)
    (h : ∀ s ∈ ls, stripNonempty s = some s) : cleanLines ls = ls := by
  induction ls with
  | nil => rfl
  | cons a t ih =>
    have ha := h a (by simp)
    simp only [cleanLines, List.filterMap_cons, ha]
    exact congrArg (a :: ·) (ih fun s hs => h s (by simp [hs]))

theorem cleanLines_append (l₁ l₂ : List String) :
    cleanLines (l₁ ++ l₂) = cleanLines l₁ ++ cleanLines l₂ := by
  simp [cleanLines]

/-! ## `src/core/project.py`: the canonical store

A file is `Option (List String)`: `none` when the file does not exist. -/

/-- `read_lines(path)`: the empty list when the file does not exist,
otherwise its lines (each already without its trailing newline). -/
def read_lines (f : Option (List String)) : List String := f.getD []

/-- The content `write_lines(path, lines)` leaves in the file (mode `"w"`):
each line stripped, empty lines skipped. -/
def write_lines (lines : List String) : List String := cleanLines lines

/-- The content of the file after `append_lines(path, lines)` (mode `"a"`,
which creates the file when absent): the old content followed by the
stripped non-empty new lines. -/
def append_lines (f : Option (List String)) (lines : List String) : List String :=
  read_lines f ++ cleanLines lines

/-- The candidate loop of `compute_new_lines`: `seen` is `existing_set`,
lines are stripped, empty or already-seen lines are skipped, and each new
stripped line is added to both the set and the output. -/
def computeNewAux (seen : List String) : List String → List String
  | [] => []
  | c :: cs =>
    match stripNonempty c with
    | none => computeNewAux seen cs
    | some s =>
      if s ∈ seen then computeNewAux seen cs
      else s :: computeNewAux (s :: seen) cs

/-- `compute_new_lines(existing_lines, candidate_lines)`. -/
def compute_new_lines (existing candidate : List String) : List String :=
  computeNewAux (cleanLines existing) candidate

/-- The return value of `merge_into_canonical`, together with the state of
the canonical file and of the delta file after the call. -/
structure MergeResult where
  canonical : Option (List String)
  delta : Option (List String)
  new_count : Nat
  deriving DecidableEq, Repr

/-- `merge_into_canonical(project_dir, canonical_file, candidate_lines,
history_dir, delta_file_name)`: read the canonical file, compute the new
lines, write the delta file unconditionally, and append the new lines to
the canonical file only when there are any. -/
def merge_into_canonical (canonical : Option (List String))
    (candidate_lines : List String) : MergeResult :=
  let existing := read_lines canonical
  let new_lines := compute_new_lines existing candidate_lines
  { canonical := if new_lines = [] then canonical else some (append_lines canonical new_lines)
    delta := some (write_lines new_lines)
    new_count := new_lines.length }

/-! ### Lemmas about `compute_new_lines` -/

theorem computeNewAux_nil (seen : List String) : computeNewAux seen [] = [] := rfl

theorem computeNewAux_cons_none (seen : List String) (c : String) (cs : List String)
    (h : stripNonempty c = none) :
    computeNewAux seen (c :: cs) = computeNewAux seen cs := by
  simp [computeNewAux, h]

theorem computeNewAux_cons_mem (seen : List String) (c s : String) (cs : List String)
    (h : stripNonempty c = some s) (hm : s ∈ seen) :
    computeNewAux seen (c :: cs) = computeNewAux seen cs := by
  simp [computeNewAux, h, hm]

theorem computeNewAux_cons_new (seen : List String) (c s : String) (cs : List String)
    (h : stripNonempty c = some s) (hm : s ∉ seen) :
    computeNewAux seen (c :: cs) = s :: computeNewAux (s :: seen) cs := by
  simp [computeNewAux, h, hm]

/-- Lines emitted by the candidate loop were not already in the seen set. -/
theorem computeNewAux_not_mem_seen (cs : List String) :
    ∀ seen s, s ∈ computeNewAux seen cs → s ∉ seen := by
  induction cs with
  | nil => intro seen s h; simp [computeNewAux_nil] at h
  | cons c cs ih =>
    intro seen s h
    cases hc : stripNonempty c with
    | none =>
      rw [computeNewAux_cons_none seen c cs hc] at h
      exact ih seen s h
    | some t =>
      by_cases ht : t ∈ seen
      · rw [computeNewAux_cons_mem seen c t cs hc ht] at h
        exact ih seen s h
      · rw [computeNewAux_cons_new seen c t cs hc ht] at h
        rcases List.mem_cons.mp h with rfl | h'
        · exact ht
        · intro hs
          exact (ih _ s h') (List.mem_cons_of_mem _ hs)

/-- The candidate loop never emits the same line twice. -/
theorem computeNewAux_nodup (cs : List String) :
    ∀ seen, (computeNewAux seen cs).Nodup := by
  induction cs with
  | nil => intro seen; simp [computeNewAux_nil]
  | cons c cs ih =>
    intro seen
    cases hc : stripNonempty c with
    | none => rw [computeNewAux_cons_none seen c cs hc]; exact ih seen
    | some t =>
      by_cases ht : t ∈ seen
      · rw [computeNewAux_cons_mem seen c t cs hc ht]; exact ih seen
      · rw [computeNewAux_cons_new seen c t cs hc ht]
        refine List.nodup_cons.mpr ⟨?_, ih _⟩
        intro hmem
        exact computeNewAux_not_mem_seen cs _ t hmem (by simp)

/-- Lines emitted by the candidate loop are stripped and non-empty. -/
theorem computeNewAux_clean (cs : List String) :
    ∀ seen s, s ∈ computeNewAux seen cs → stripNonempty s = some s := by
  induction cs with
  | nil => intro seen s h; simp [computeNewAux_nil] at h
  | cons c cs ih =>
    intro seen s h
    cases hc : stripNonempty c with
    | none =>
      rw [computeNewAux_cons_none seen c cs hc] at h
      exact ih seen s h
    | some t =>
      by_cases ht : t ∈ seen
      · rw [computeNewAux_cons_mem seen c t cs hc ht] at h
        exact ih seen s h
      · rw [computeNewAux_cons_new seen c t cs hc ht] at h
        rcases List.mem_cons.mp h with rfl | h'
        · exact stripNonempty_of_mem c s hc
        · exact ih _ s h'

/-- Every candidate's key ends up either in the seen set or in the output. -/
theorem computeNewAux_covers (cs : List String) :
    ∀ seen c s, c ∈ cs → stripNonempty c = some s →
      s ∈ seen ∨ s ∈ computeNewAux seen cs := by
  induction cs with
  | nil => intro seen c s h; simp at h
  | cons c₀ cs ih =>
    intro seen c s hmem hstrip
    cases hc : stripNonempty c₀ with
    | none =>
      rw [computeNewAux_cons_none seen c₀ cs hc]
      rcases List.mem_cons.mp hmem with rfl | h'
      · rw [hstrip] at hc; cases hc
      · exact ih seen c s h' hstrip
    | some t =>
      by_cases ht : t ∈ seen
      · rw [computeNewAux_cons_mem seen c₀ t cs hc ht]
        rcases List.mem_cons.mp hmem with rfl | h'
        · rw [hstrip] at hc
          injection hc with hc
          exact Or.inl (hc ▸ ht)
        · exact ih seen c s h' hstrip
      · rw [computeNewAux_cons_new seen c₀ t cs hc ht]
        rcases List.mem_cons.mp hmem with rfl | h'
        · rw [hstrip] at hc
          injection hc with hc
          exact Or.inr (by simp [hc])
        · rcases ih (t :: seen) c s h' hstrip with h'' | h''
          · rcases List.mem_cons.mp h'' with rfl | h₃
            · exact Or.inr (by simp)
            · exact Or.inl h₃
          · exact Or.inr (by simp [h''])

/-- The candidate loop emits nothing exactly when every candidate's stripped
key is already in the seen set. -/
theorem computeNewAux_eq_nil_iff (cs : List String) :
    ∀ seen, computeNewAux seen cs = [] ↔
      ∀ c ∈ cs, ∀ s, stripNonempty c = some s → s ∈ seen := by
  induction cs with
  | nil => intro seen; simp [computeNewAux_nil]
  | cons c₀ cs ih =>
    intro seen
    cases hc : stripNonempty c₀ with
    | none =>
      rw [computeNewAux_cons_none seen c₀ cs hc, ih seen]
      constructor
      · intro h c hmem s hs
        rcases List.mem_cons.mp hmem with rfl | h'
        · rw [hs] at hc; cases hc
        · exact h c h' s hs
      · intro h c hmem s hs
        exact h c (List.mem_cons_of_mem _ hmem) s hs
    | some t =>
      by_cases ht : t ∈ seen
      · rw [computeNewAux_cons_mem seen c₀ t cs hc ht, ih seen]
        constructor
        · intro h c hmem s hs
          rcases List.mem_cons.mp hmem with rfl | h'
          · rw [hs] at hc
            injection hc with hc
            exact hc ▸ ht
          · exact h c h' s hs
        · intro h c hmem s hs
          exact h c (List.mem_cons_of_mem _ hmem) s hs
      · rw [computeNewAux_cons_new seen c₀ t cs hc ht]
        constructor
        · intro h; cases h
        · intro h
          exact absurd (h c₀ (by simp) t hc) ht

/-! ### Merge-level lemmas -/

/-- Every line of `compute_new_lines` is stripped and non-empty. -/
theorem compute_new_lines_clean (existing X : List String) :
    ∀ s ∈ compute_new_lines existing X, stripNonempty s = some s :=
  fun s hs => computeNewAux_clean X (cleanLines existing) s hs

/-- `cleanLines` fixes the output of `compute_new_lines`. -/
theorem cleanLines_compute_new_lines (existing X : List String) :
    cleanLines (compute_new_lines existing X) = compute_new_lines existing X :=
  cleanLines_eq_self _ (compute_new_lines_clean existing X)

theorem compute_new_lines_nodup (existing X : List String) :
    (compute_new_lines existing X).Nodup :=
  computeNewAux_nodup X (cleanLines existing)

theorem compute_new_lines_not_mem (existing X : List String) :
    ∀ s ∈ compute_new_lines existing X, s ∉ cleanLines existing :=
  fun s hs => computeNewAux_not_mem_seen X (cleanLines existing) s hs

theorem compute_new_lines_covers (existing X : List String) (x s : String)
    (hx : x ∈ X) (hs : stripNonempty x = some s) :
    s ∈ cleanLines existing ∨ s ∈ compute_new_lines existing X :=
  computeNewAux_covers X (cleanLines existing) x s hx hs

theorem compute_new_lines_eq_nil_iff (existing X : List String) :
    compute_new_lines existing X = [] ↔
      ∀ c ∈ X, ∀ s, stripNonempty c = some s → s ∈ cleanLines existing :=
  computeNewAux_eq_nil_iff X (cleanLines existing)

/-- After a merge, every candidate's stripped key is present in the stripped
content of the canonical file. -/
theorem merge_saturates (c : Option (List String)) (X : List String) :
    ∀ x ∈ X, ∀ s, stripNonempty x = some s →
      s ∈ cleanLines (read_lines (merge_into_canonical c X).canonical) := by
  intro x hx s hs
  show s ∈ cleanLines (read_lines
    (if compute_new_lines (read_lines c) X = [] then c
     else some (append_lines c (compute_new_lines (read_lines c) X))))
  by_cases hN : compute_new_lines (read_lines c) X = []
  · rw [if_pos hN]
    exact (compute_new_lines_eq_nil_iff (read_lines c) X).mp hN x hx s hs
  · rw [if_neg hN]
    show s ∈ cleanLines (read_lines (some (append_lines c (compute_new_lines (read_lines c) X))))
    have hgoal : cleanLines (read_lines (some (append_lines c (compute_new_lines (read_lines c) X))))
        = cleanLines (read_lines c) ++ compute_new_lines (read_lines c) X := by
      show cleanLines (append_lines c (compute_new_lines (read_lines c) X)) = _
      rw [append_lines, cleanLines_append, cleanLines_compute_new_lines,
        cleanLines_compute_new_lines]
    rw [hgoal, List.mem_append]
    exact compute_new_lines_covers (read_lines c) X x s hx hs

/-- Merging the same batch a second time finds nothing new. -/
theorem merge_twice_no_new (c : Option (List String)) (X : List String) :
    compute_new_lines (read_lines (merge_into_canonical c X).canonical) X = [] := by
  apply (computeNewAux_eq_nil_iff X _).mpr
  intro x hx s hs
  exact merge_saturates c X x hx s hs

/-- C2. Merge idempotence: for every canonical-file state and candidate
batch `X`, merging `X` and then merging the same `X` again yields
`new_count = 0` on the second call, and the canonical file after the second
call is identical to the canonical file after the first call. -/
theorem merge_into_canonical_idempotent (c : Option (List String)) (X : List String) :
    (merge_into_canonical (merge_into_canonical c X).canonical X).new_count = 0 ∧
    (merge_into_canonical (merge_into_canonical c X).canonical X).canonical
      = (merge_into_canonical c X).canonical := by
  have key := merge_twice_no_new c X
  constructor
  · show (compute_new_lines (read_lines (merge_into_canonical c X).canonical) X).length = 0
    rw [key]
    rfl
  · show (if compute_new_lines (read_lines (merge_into_canonical c X).canonical) X = []
        then (merge_into_canonical c X).canonical
        else some (append_lines (merge_into_canonical c X).canonical
          (compute_new_lines (read_lines (merge_into_canonical c X).canonical) X)))
      = (merge_into_canonical c X).canonical
    rw [key]
    simp

/-- A canonical-file content that is deduplicated and whose every line is
stripped and non-empty: the invariant maintained by the store. -/
def CleanNodup (l : List String) : Prop :=
  l.Nodup ∧ ∀ s ∈ l, stripNonempty s = some s

/-- One merge preserves the canonical-file invariant. -/
theorem merge_preserves_CleanNodup (c : Option (List String)) (X : List String)
    (h : CleanNodup (read_lines c)) :
    CleanNodup (read_lines (merge_into_canonical c X).canonical) := by
  show CleanNodup (read_lines
    (if compute_new_lines (read_lines c) X = [] then c
     else some (append_lines c (compute_new_lines (read_lines c) X))))
  by_cases hN : compute_new_lines (read_lines c) X = []
  · rw [if_pos hN]; exact h
  · rw [if_neg hN]
    obtain ⟨hnd, hcl⟩ := h
    have hclean : cleanLines (read_lines c) = read_lines c := cleanLines_eq_self _ hcl
    have hcontent : read_lines (some (append_lines c (compute_new_lines (read_lines c) X)))
        = read_lines c ++ compute_new_lines (read_lines c) X := by
      show append_lines c (compute_new_lines (read_lines c) X) = _
      rw [append_lines, cleanLines_compute_new_lines]
    rw [hcontent]
    constructor
    · refine List.Nodup.append hnd (compute_new_lines_nodup _ _) ?_
      intro s hs₁ hs₂
      have := compute_new_lines_not_mem (read_lines c) X s hs₂
      rw [hclean] at this
      exact this hs₁
    · intro s hs
      rcases List.mem_append.mp hs with hs | hs
      · exact hcl s hs
      · exact compute_new_lines_clean _ _ s hs

/-- The canonical file after a sequence of merges, starting from state `c`. -/
def applyMerges (c : Option (List String)) (bs : List (List String)) :
    Option (List String) :=
  bs.foldl (fun acc b => (merge_into_canonical acc b).canonical) c

theorem applyMerges_CleanNodup (bs : List (List String)) :
    ∀ c, CleanNodup (read_lines c) → CleanNodup (read_lines (applyMerges c bs)) := by
  induction bs with
  | nil => intro c h; exact h
  | cons b bs ih =>
    intro c h
    exact ih _ (merge_preserves_CleanNodup c b h)

/-- C5. Canonical set invariant: a canonical file created and mutated only
by `merge_into_canonical` never contains the same line twice, and each
merge only appends to the existing content (every line present before a
merge is still present, at its place, after it). -/
theorem canonical_set_invariant (bs : List (List String)) :
    (read_lines (applyMerges none bs)).Nodup ∧
    ∀ (c : Option (List String)) (X : List String),
      read_lines c <+: read_lines (merge_into_canonical c X).canonical := by
  constructor
  · exact (applyMerges_CleanNodup bs none (by constructor <;> simp [read_lines])).1
  · intro c X
    show read_lines c <+: read_lines
      (if compute_new_lines (read_lines c) X = [] then c
       else some (append_lines c (compute_new_lines (read_lines c) X)))
    by_cases hN : compute_new_lines (read_lines c) X = []
    · rw [if_pos hN]
    · rw [if_neg hN]
      exact ⟨cleanLines (compute_new_lines (read_lines c) X), rfl⟩

/-- C9. Zero-delta frame property: when a merge contributes no new lines,
the canonical file is left exactly as it was (in particular it is not
created when absent), while the delta file is still written, as an empty
file. -/
theorem merge_zero_new_frame (c : Option (List String)) (X : List String)
    (h : (merge_into_canonical c X).new_count = 0) :
    (merge_into_canonical c X).canonical = c ∧
    (merge_into_canonical c X).delta = some [] := by
  have hN : compute_new_lines (read_lines c) X = [] := by
    have : (compute_new_lines (read_lines c) X).length = 0 := h
    exact List.length_eq_zero.mp this
  constructor
  · show (if compute_new_lines (read_lines c) X = [] then c
        else some (append_lines c (compute_new_lines (read_lines c) X))) = c
    rw [if_pos hN]
  · show some (write_lines (compute_new_lines (read_lines c) X)) = some []
    rw [hN]
    rfl

/-- Witness for C9 at a concrete input: merging a batch made of an already
present line, a whitespace variant of it, and an empty line yields
`new_count = 0`, leaves the canonical file untouched and writes an empty
delta file. -/
theorem merge_zero_new_frame_witness :
    (merge_into_canonical (some ["a.example.com"])
        ["a.example.com", " a.example.com ", ""]).new_count = 0 ∧
    ((merge_into_canonical (some ["a.example.com"])
        ["a.example.com", " a.example.com ", ""]).canonical = some ["a.example.com"] ∧
     (merge_into_canonical (some ["a.example.com"])
        ["a.example.com", " a.example.com ", ""]).delta = some []) :=
  ⟨by decide, merge_zero_new_frame (some ["a.example.com"])
    ["a.example.com", " a.example.com ", ""] (by decide)⟩

/-! ## `src/core/rate_limiter.py`: the token-bucket rate limiter

Wall-clock time and token counts are rationals.  The `tool_limits`
dictionary is an association list with Python-`dict` lookup and update
semantics.  `acquire`'s `tokens` parameter (the cost) is a natural number:
the repository always calls it with the default `1`. -/

structure GlobalRateLimiter where
  rps : ℚ
  burst_capacity : ℚ
  tokens : ℚ
  last_update : ℚ
  tool_limits : List (String × ℚ)
  enabled : Bool
  deriving DecidableEq, Repr

/-- `GlobalRateLimiter.__init__(requests_per_second, burst_capacity)` at
wall-clock time `now`: the bucket starts full. -/
def mkGlobalRateLimiter (requests_per_second burst_capacity now : ℚ) : GlobalRateLimiter :=
  { rps := requests_per_second
    burst_capacity := burst_capacity
    tokens := burst_capacity
    last_update := now
    tool_limits := []
    enabled := true }

/-- `dict.get` on the tool-limits mapping. -/
def lookupToolLimit (limits : List (String × ℚ)) (tool : String) : Option ℚ :=
  match limits.find? (fun p => p.1 = tool) with
  | some p => some p.2
  | none => none

/-- `dict.__setitem__` on the tool-limits mapping. -/
def setAssoc (l : List (String × ℚ)) (k : String) (v : ℚ) : List (String × ℚ) :=
  match l with
  | [] => [(k, v)]
  | p :: t => if p.1 = k then (k, v) :: t else p :: setAssoc t k v

/-- `set_tool_limit(tool_name, requests_per_second)`. -/
def set_tool_limit (st : GlobalRateLimiter) (tool : String) (r : ℚ) : GlobalRateLimiter :=
  { st with tool_limits := setAssoc st.tool_limits tool r }

/-- `effective_rps = self.tool_limits.get(tool_name, self.rps) if tool_name
else self.rps` (line 31 of `rate_limiter.py`). -/
def effective_rps (st : GlobalRateLimiter) (tool : Option String) : ℚ :=
  match tool with
  | some t => (lookupToolLimit st.tool_limits t).getD st.rps
  | none => st.rps

/-- The token count after the refill of `acquire` (lines 26-28): add
`elapsed * self.rps` and clamp at the burst capacity. -/
def refilled_tokens (st : GlobalRateLimiter) (now : ℚ) : ℚ :=
  let t := st.tokens + (now - st.last_update) * st.rps
  if t > st.burst_capacity then st.burst_capacity else t

/-- `acquire(tool_name, tokens)` at wall-clock time `now`: the returned
wait time in seconds, and the limiter state after the call. -/
def acquire (st : GlobalRateLimiter) (now : ℚ) (tool_name : Option String)
    (tokens : ℕ) : ℚ × GlobalRateLimiter :=
  if st.enabled = false then (0, st)
  else
    let toks := refilled_tokens st now
    let erps := effective_rps st tool_name
    if toks < (tokens : ℚ) then
      let wait := ((tokens : ℚ) - toks) / erps
      (wait, { st with tokens := 0, last_update := now + wait })
    else
      (0, { st with tokens := toks - (tokens : ℚ), last_update := now })

/-- The refill the spec's words describe: `elapsed * effectiveRps`
(tool-specific override when set, else global), clamped to burst capacity.
Stated only to be compared against `refilled_tokens`, the refill the code
performs. -/
def claimed_refilled_tokens (st : GlobalRateLimiter) (now : ℚ) (tool : Option String) : ℚ :=
  let t := st.tokens + (now - st.last_update) * effective_rps st tool
  if t > st.burst_capacity then st.burst_capacity else t

/-- `get_global_rate_limiter(requests_per_second, burst_capacity)` acting
on the module-level singleton cell: returns the limiter and the new cell. -/
def get_global_rate_limiter (cell : Option GlobalRateLimiter)
    (requests_per_second burst_capacity now : ℚ) :
    GlobalRateLimiter × Option GlobalRateLimiter :=
  match cell with
  | none =>
    let l := mkGlobalRateLimiter requests_per_second burst_capacity now
    (l, some l)
  | some l => (l, some l)

/-! ### Lemmas on the limiter -/

theorem lookup_setAssoc_same (l : List (String × ℚ)) (k : String) (v : ℚ) :
    lookupToolLimit (setAssoc l k v) k = some v := by
  induction l with
  | nil =>
    show lookupToolLimit [(k, v)] k = some v
    simp [lookupToolLimit, List.find?]
  | cons p t ih =>
    show lookupToolLimit (if p.1 = k then (k, v) :: t else p :: setAssoc t k v) k = some v
    by_cases h : p.1 = k
    · rw [if_pos h]
      simp [lookupToolLimit, List.find?]
    · rw [if_neg h]
      unfold lookupToolLimit
      rw [List.find?_cons_of_neg _ (by simpa using h)]
      exact ih

theorem lookup_setAssoc_other (l : List (String × ℚ)) (k k' : String) (v : ℚ)
    (h : k' ≠ k) : lookupToolLimit (setAssoc l k v) k' = lookupToolLimit l k' := by
  have hkk : ¬(k = k') := fun hh => h hh.symm
  induction l with
  | nil =>
    show lookupToolLimit [(k, v)] k' = lookupToolLimit [] k'
    unfold lookupToolLimit
    rw [List.find?_cons_of_neg _ (by simpa using hkk)]
  | cons p t ih =>
    show lookupToolLimit (if p.1 = k then (k, v) :: t else p :: setAssoc t k v) k'
      = lookupToolLimit (p :: t) k'
    by_cases hp : p.1 = k
    · rw [if_pos hp]
      unfold lookupToolLimit
      rw [List.find?_cons_of_neg _ (by simpa using hkk),
        List.find?_cons_of_neg _ (by simp [hp, hkk])]
    · rw [if_neg hp]
      by_cases hp' : p.1 = k'
      · unfold lookupToolLimit
        rw [List.find?_cons_of_pos _ (by simpa using hp'),
          List.find?_cons_of_pos _ (by simpa using hp')]
      · unfold lookupToolLimit
        rw [List.find?_cons_of_neg _ (by simpa using hp'),
          List.find?_cons_of_neg _ (by simpa using hp')]
        exact ih

/-- The refill never reads the tool-limits mapping. -/
theorem refilled_tokens_ignores_limits (st : GlobalRateLimiter) (now : ℚ)
    (L : List (String × ℚ)) :
    refilled_tokens { st with tool_limits := L } now = refilled_tokens st now := rfl

/-- A concrete limiter state: global rate 1, burst 100, empty bucket, last
update at time 0, a tool-specific override of 2 RPS for `"httpx"`. -/
def st4 : GlobalRateLimiter :=
  { rps := 1, burst_capacity := 100, tokens := 0, last_update := 0,
    tool_limits := [("httpx", 2)], enabled := true }

/-- C4 counterexample: on `st4`, one second after its last update and two
tokens short, the code refills by `elapsed * rps = 1` token
(`refilled_tokens`), not by `elapsed * effectiveRps = 2` tokens as the
claim states (`claimed_refilled_tokens`), and the returned wait time is
the one derived from the global-rate refill, not the claimed one. -/
theorem refill_ignores_override_counterexample :
    effective_rps st4 (some "httpx") = 2 ∧
    refilled_tokens st4 1 = 1 ∧
    claimed_refilled_tokens st4 1 (some "httpx") = 2 ∧
    refilled_tokens st4 1 ≠ claimed_refilled_tokens st4 1 (some "httpx") ∧
    (acquire st4 1 (some "httpx") 3).1 = 1 ∧
    ((3 : ℚ) - claimed_refilled_tokens st4 1 (some "httpx"))
        / effective_rps st4 (some "httpx") = 1 / 2 := by
  refine ⟨?_, ?_, ?_, ?_, ?_, ?_⟩
  · norm_num [st4, effective_rps, lookupToolLimit, List.find?]
  · norm_num [st4, refilled_tokens]
  · norm_num [st4, claimed_refilled_tokens, effective_rps, lookupToolLimit, List.find?]
  · norm_num [st4, refilled_tokens, claimed_refilled_tokens, effective_rps, lookupToolLimit,
      List.find?]
  · norm_num [st4, acquire, refilled_tokens, effective_rps, lookupToolLimit, List.find?]
  · norm_num [st4, claimed_refilled_tokens, effective_rps, lookupToolLimit, List.find?]

/-- C4 amended: the refill added before the admission check is
`elapsed * rps` (the global rate) clamped to burst capacity, regardless of
any tool-specific override: it is unchanged under any rewrite of the
tool-limits mapping, the post-call token count is determined by it, and
whether the call waits is decided by comparing it with the cost.  The
override only enters the wait-time division. -/
theorem acquire_refill_uses_global_rps (st : GlobalRateLimiter) (now : ℚ)
    (tool : Option String) (cost : ℕ) (L : List (String × ℚ))
    (hen : st.enabled = true) (hpos : 0 < effective_rps st tool) :
    refilled_tokens { st with tool_limits := L } now = refilled_tokens st now ∧
    (acquire st now tool cost).2.tokens
      = (if refilled_tokens st now < (cost : ℚ) then 0
         else refilled_tokens st now - (cost : ℚ)) ∧
    ((acquire st now tool cost).1 = 0 ↔ (cost : ℚ) ≤ refilled_tokens st now) := by
  refine ⟨rfl, ?_, ?_⟩
  · by_cases h : refilled_tokens st now < (cost : ℚ)
    · simp [acquire, hen, h]
    · simp [acquire, hen, h]
  · by_cases h : refilled_tokens st now < (cost : ℚ)
    · simp only [acquire, hen, Bool.true_eq_false, if_false, if_pos h]
      constructor
      · intro h0
        have hnum : (0 : ℚ) < (cost : ℚ) - refilled_tokens st now := by linarith
        have := div_pos hnum hpos
        rw [h0] at this
        exact absurd this (lt_irrefl 0)
      · intro hle
        exact absurd hle (not_le.mpr h)
    · simp only [acquire, hen, Bool.true_eq_false, if_false, if_neg h]
      simp [not_lt.mp h]

/-- Witness for C4's amended theorem at a concrete input. -/
theorem acquire_refill_uses_global_rps_witness :
    st4.enabled = true ∧
    (0 : ℚ) < effective_rps st4 (some "httpx") ∧
    (refilled_tokens { st4 with tool_limits := [] } 1 = refilled_tokens st4 1 ∧
     (acquire st4 1 (some "httpx") 3).2.tokens
      = (if refilled_tokens st4 1 < ((3 : ℕ) : ℚ) then 0
         else refilled_tokens st4 1 - ((3 : ℕ) : ℚ)) ∧
     ((acquire st4 1 (some "httpx") 3).1 = 0
        ↔ ((3 : ℕ) : ℚ) ≤ refilled_tokens st4 1)) :=
  ⟨rfl, by norm_num [st4, effective_rps, lookupToolLimit, List.find?],
   acquire_refill_uses_global_rps st4 1 (some "httpx") 3 []
     rfl (by norm_num [st4, effective_rps, lookupToolLimit, List.find?])⟩

/-- C7. When `acquire` finds insufficient tokens, the wait time is
`(cost - tokens) / toolRps` for a tool whose RPS was set via
`set_tool_limit`, while a tool without an override keeps the global RPS in
the same formula. -/
theorem acquire_wait_uses_tool_rps (st : GlobalRateLimiter) (now : ℚ) (tool other : String)
    (cost : ℕ) (r : ℚ) (hen : st.enabled = true)
    (hshort : refilled_tokens st now < (cost : ℚ))
    (hother : lookupToolLimit st.tool_limits other = none) (hne : other ≠ tool) :
    (acquire (set_tool_limit st tool r) now (some tool) cost).1
      = ((cost : ℚ) - refilled_tokens st now) / r ∧
    (acquire (set_tool_limit st tool r) now (some other) cost).1
      = ((cost : ℚ) - refilled_tokens st now) / st.rps := by
  have hst : (set_tool_limit st tool r).enabled = true := hen
  have hrefill : refilled_tokens (set_tool_limit st tool r) now = refilled_tokens st now := rfl
  constructor
  · have herps : effective_rps (set_tool_limit st tool r) (some tool) = r := by
      simp [effective_rps, set_tool_limit, lookup_setAssoc_same]
    simp only [acquire, hst, Bool.true_eq_false, if_false, hrefill, if_pos hshort, herps]
  · have herps : effective_rps (set_tool_limit st tool r) (some other) = st.rps := by
      simp [effective_rps, set_tool_limit, lookup_setAssoc_other _ _ _ _ hne, hother]
    simp only [acquire, hst, Bool.true_eq_false, if_false, hrefill, if_pos hshort, herps]

/-- A concrete limiter with no overrides: global rate 1, burst 100, empty
bucket, last update at time 0. -/
def st7 : GlobalRateLimiter :=
  { rps := 1, burst_capacity := 100, tokens := 0, last_update := 0,
    tool_limits := [], enabled := true }

/-- Witness for C7 at a concrete input: after `set_tool_limit("httpx", 2)`,
an insufficient-token `acquire` for `"httpx"` waits `(3 - 1) / 2` while one
for `"gau"` (no override) waits `(3 - 1) / 1`. -/
theorem acquire_wait_uses_tool_rps_witness :
    st7.enabled = true ∧
    refilled_tokens st7 1 < ((3 : ℕ) : ℚ) ∧
    lookupToolLimit st7.tool_limits "gau" = none ∧
    "gau" ≠ "httpx" ∧
    ((acquire (set_tool_limit st7 "httpx" 2) 1 (some "httpx") 3).1
        = (((3 : ℕ) : ℚ) - refilled_tokens st7 1) / 2 ∧
     (acquire (set_tool_limit st7 "httpx" 2) 1 (some "gau") 3).1
        = (((3 : ℕ) : ℚ) - refilled_tokens st7 1) / st7.rps) :=
  ⟨rfl, by norm_num [st7, refilled_tokens], rfl, by decide,
   acquire_wait_uses_tool_rps st7 1 "httpx" "gau" 3 2 rfl
     (by norm_num [st7, refilled_tokens]) rfl (by decide)⟩

/-- The limiters returned and the final cell state after a sequence of
further `get_global_rate_limiter` calls, each with its own
`(requests_per_second, burst_capacity, now)` arguments. -/
def callGetRepeatedly (cell : Option GlobalRateLimiter) (args : List (ℚ × ℚ × ℚ)) :
    List GlobalRateLimiter × Option GlobalRateLimiter :=
  match args with
  | [] => ([], cell)
  | (r, b, t) :: rest =>
    let first := get_global_rate_limiter cell r b t
    let later := callGetRepeatedly first.2 rest
    (first.1 :: later.1, later.2)

theorem callGetRepeatedly_some (l : GlobalRateLimiter) (args : List (ℚ × ℚ × ℚ)) :
    callGetRepeatedly (some l) args = (args.map (fun _ => l), some l) := by
  induction args with
  | nil => rfl
  | cons a rest ih =>
    obtain ⟨r, b, t⟩ := a
    simp [callGetRepeatedly, get_global_rate_limiter, ih]

/-- C10. Singleton configuration immunity: with an empty module cell, the
first `get_global_rate_limiter(r₁, b₁)` call creates the limiter with
exactly those parameters (and a full bucket), and every subsequent call —
whatever `requests_per_second` and `burst_capacity` it passes — returns
that same instance and leaves the cell unchanged. -/
theorem get_global_rate_limiter_singleton (r₁ b₁ t₁ : ℚ) (args : List (ℚ × ℚ × ℚ)) :
    (get_global_rate_limiter none r₁ b₁ t₁).1.rps = r₁ ∧
    (get_global_rate_limiter none r₁ b₁ t₁).1.burst_capacity = b₁ ∧
    (get_global_rate_limiter none r₁ b₁ t₁).1.tokens = b₁ ∧
    (callGetRepeatedly (get_global_rate_limiter none r₁ b₁ t₁).2 args).1
      = args.map (fun _ => (get_global_rate_limiter none r₁ b₁ t₁).1) ∧
    (callGetRepeatedly (get_global_rate_limiter none r₁ b₁ t₁).2 args).2
      = (get_global_rate_limiter none r₁ b₁ t₁).2 := by
  refine ⟨rfl, rfl, rfl, ?_, ?_⟩
  · rw [show (get_global_rate_limiter none r₁ b₁ t₁).2
        = some (mkGlobalRateLimiter r₁ b₁ t₁) from rfl,
      callGetRepeatedly_some]
    rfl
  · rw [show (get_global_rate_limiter none r₁ b₁ t₁).2
        = some (mkGlobalRateLimiter r₁ b₁ t₁) from rfl,
      callGetRepeatedly_some]

/-! ### C6: the admission bound over a time window

A trace of `acquire` calls: each call carries its wall-clock time, the
tool name passed, and the cost (`tokens` argument). -/

structure Call where
  time : ℚ
  tool : Option String
  cost : ℕ
  deriving DecidableEq, Repr

/-- Run a sequence of `acquire` calls, returning each call paired with the
wait time `acquire` returned for it. -/
def runCalls (st : GlobalRateLimiter) : List Call → List (Call × ℚ)
  | [] => []
  | c :: cs =>
    let r := acquire st c.time c.tool c.cost
    (c, r.1) :: runCalls r.2 cs

/-- Total token units admitted without wait (returned wait `0`) among the
calls whose time lies in the window `[a, b]`. -/
def admittedInWindow (a b : ℚ) (rs : List (Call × ℚ)) : ℚ :=
  (rs.map (fun r => if r.2 = 0 ∧ a ≤ r.1.time ∧ r.1.time ≤ b then (r.1.cost : ℚ) else 0)).sum

/-- The bucket invariant: a token count between 0 and the burst capacity. -/
def LimiterInv (st : GlobalRateLimiter) : Prop :=
  0 ≤ st.tokens ∧ st.tokens ≤ st.burst_capacity

/-- All rates the limiter can divide by are positive: the global RPS and
every tool override. -/
def PositiveRates (st : GlobalRateLimiter) : Prop :=
  0 < st.rps ∧ ∀ t r, lookupToolLimit st.tool_limits t = some r → 0 < r

theorem PositiveRates.effective {st : GlobalRateLimiter} (h : PositiveRates st)
    (tool : Option String) : 0 < effective_rps st tool := by
  cases tool with
  | none => exact h.1
  | some t =>
    show 0 < (lookupToolLimit st.tool_limits t).getD st.rps
    cases hl : lookupToolLimit st.tool_limits t with
    | none => simpa using h.1
    | some r => simpa using h.2 t r hl

theorem acquire_preserves_fields (st : GlobalRateLimiter) (now : ℚ)
    (tool : Option String) (cost : ℕ) :
    (acquire st now tool cost).2.rps = st.rps ∧
    (acquire st now tool cost).2.burst_capacity = st.burst_capacity ∧
    (acquire st now tool cost).2.tool_limits = st.tool_limits ∧
    (acquire st now tool cost).2.enabled = st.enabled := by
  unfold acquire
  by_cases he : st.enabled = false
  · simp [he]
  · by_cases hlt : refilled_tokens st now < (cost : ℚ)
    · simp [he, hlt]
    · simp [he, hlt]

theorem acquire_preserves_positive (st : GlobalRateLimiter) (now : ℚ)
    (tool : Option String) (cost : ℕ) (h : PositiveRates st) :
    PositiveRates (acquire st now tool cost).2 := by
  obtain ⟨hr, -, hl, -⟩ := acquire_preserves_fields st now tool cost
  exact ⟨hr ▸ h.1, by rw [hl]; exact h.2⟩

theorem refilled_tokens_le_linear (st : GlobalRateLimiter) (now : ℚ) :
    refilled_tokens st now ≤ st.tokens + (now - st.last_update) * st.rps := by
  unfold refilled_tokens
  by_cases h : st.tokens + (now - st.last_update) * st.rps > st.burst_capacity
  · simp only [h, if_true]
    linarith
  · simp [h]

/-- The clamp keeps the refilled count at or below the burst capacity. -/
theorem refilled_tokens_le_cap_of_inv (st : GlobalRateLimiter) (now : ℚ)
    (_hle : st.tokens ≤ st.burst_capacity) :
    refilled_tokens st now ≤ st.burst_capacity := by
  unfold refilled_tokens
  by_cases h : st.tokens + (now - st.last_update) * st.rps > st.burst_capacity
  · simp [h]
  · simp only [h, if_false]
    exact not_lt.mp h

theorem acquire_disabled (st : GlobalRateLimiter) (now : ℚ) (tool : Option String)
    (cost : ℕ) (h : st.enabled = false) : acquire st now tool cost = (0, st) := by
  unfold acquire
  simp [h]

theorem acquire_wait_of_short (st : GlobalRateLimiter) (now : ℚ)
    (tool : Option String) (cost : ℕ) (hen : st.enabled = true)
    (hlt : refilled_tokens st now < (cost : ℚ)) :
    acquire st now tool cost =
      (((cost : ℚ) - refilled_tokens st now) / effective_rps st tool,
        { st with
            tokens := 0
            last_update := now + ((cost : ℚ) - refilled_tokens st now) / effective_rps st tool }) := by
  unfold acquire
  simp [hen, hlt]

theorem acquire_of_enough (st : GlobalRateLimiter) (now : ℚ)
    (tool : Option String) (cost : ℕ) (hen : st.enabled = true)
    (hnlt : ¬ refilled_tokens st now < (cost : ℚ)) :
    acquire st now tool cost =
      (0, { st with
              tokens := refilled_tokens st now - (cost : ℚ)
              last_update := now }) := by
  unfold acquire
  simp [hen, hnlt]

theorem acquire_preserves_inv (st : GlobalRateLimiter) (now : ℚ)
    (tool : Option String) (cost : ℕ) (hinv : LimiterInv st) :
    LimiterInv (acquire st now tool cost).2 := by
  obtain ⟨h0, hle⟩ := hinv
  have hbn : 0 ≤ st.burst_capacity := le_trans h0 hle
  by_cases hen : st.enabled = true
  · by_cases hlt : refilled_tokens st now < (cost : ℚ)
    · rw [acquire_wait_of_short st now tool cost hen hlt]
      exact ⟨le_refl 0, hbn⟩
    · rw [acquire_of_enough st now tool cost hen hlt]
      have hcap := refilled_tokens_le_cap_of_inv st now hle
      have hcost : (0 : ℚ) ≤ (cost : ℚ) := Nat.cast_nonneg cost
      exact ⟨by show (0:ℚ) ≤ refilled_tokens st now - (cost : ℚ); linarith [not_lt.mp hlt],
        by show refilled_tokens st now - (cost : ℚ) ≤ st.burst_capacity; linarith⟩
  · have hf : st.enabled = false := by
      revert hen
      cases st.enabled <;> simp
    rw [acquire_disabled st now tool cost hf]
    exact ⟨h0, hle⟩

theorem admittedInWindow_nil (a b : ℚ) : admittedInWindow a b [] = 0 := rfl

theorem admittedInWindow_cons (a b : ℚ) (p : Call × ℚ) (rs : List (Call × ℚ)) :
    admittedInWindow a b (p :: rs)
      = (if p.2 = 0 ∧ a ≤ p.1.time ∧ p.1.time ≤ b then (p.1.cost : ℚ) else 0)
        + admittedInWindow a b rs := by
  simp [admittedInWindow]

/-- Calls strictly after the window contribute nothing. -/
theorem admittedInWindow_zero_of_late (a b : ℚ) (calls : List Call) :
    ∀ st, (∀ c ∈ calls, b < c.time) →
      admittedInWindow a b (runCalls st calls) = 0 := by
  induction calls with
  | nil => intro st _; rfl
  | cons c cs ih =>
    intro st h
    rw [show runCalls st (c :: cs)
        = (c, (acquire st c.time c.tool c.cost).1)
          :: runCalls (acquire st c.time c.tool c.cost).2 cs from rfl,
      admittedInWindow_cons]
    rw [ih _ (fun x hx => h x (List.mem_cons_of_mem _ hx))]
    rw [if_neg]
    · ring
    · rintro ⟨-, -, hbt⟩
      exact absurd hbt (not_le.mpr (h c (by simp)))

/-- Core bound: from a state whose last-update stamp is at least `lb`, the
window-counted admissions of a chronological trace with all times at least
`lb` stay below the current tokens plus `rps * (b - lb)`. -/
theorem admitted_bound_core (a b : ℚ) (calls : List Call) :
    ∀ (st : GlobalRateLimiter) (lb : ℚ),
      st.enabled = true → PositiveRates st → LimiterInv st →
      lb ≤ st.last_update → lb ≤ b →
      (∀ c ∈ calls, lb ≤ c.time) →
      calls.Pairwise (fun c c' => c.time ≤ c'.time) →
      admittedInWindow a b (runCalls st calls) ≤ st.tokens + st.rps * (b - lb) := by
  induction calls with
  | nil =>
    intro st lb _ hpr hinv hlast hlb _ _
    rw [show runCalls st [] = [] from rfl, admittedInWindow_nil]
    have hm : 0 ≤ st.rps * (b - lb) := mul_nonneg (le_of_lt hpr.1) (by linarith)
    linarith [hinv.1]
  | cons c cs ih =>
    intro st lb hen hpr hinv hlast hlb hge hpw
    obtain ⟨hhead, htail⟩ := List.pairwise_cons.mp hpw
    have hposE : 0 < effective_rps st c.tool := hpr.effective c.tool
    have hlbt : lb ≤ c.time := hge c (by simp)
    rw [show runCalls st (c :: cs)
        = (c, (acquire st c.time c.tool c.cost).1)
          :: runCalls (acquire st c.time c.tool c.cost).2 cs from rfl,
      admittedInWindow_cons]
    by_cases htb : c.time ≤ b
    · -- the call is not past the window's end
      have hrefl : refilled_tokens st c.time ≤ st.tokens + st.rps * (c.time - lb) := by
        have h1 := refilled_tokens_le_linear st c.time
        have h2 : (c.time - st.last_update) * st.rps ≤ (c.time - lb) * st.rps :=
          mul_le_mul_of_nonneg_right (by linarith) (le_of_lt hpr.1)
        have h3 : (c.time - lb) * st.rps = st.rps * (c.time - lb) := mul_comm _ _
        linarith
      by_cases hlt : refilled_tokens st c.time < (c.cost : ℚ)
      · -- wait branch: nothing admitted, bucket emptied, stamp moved forward
        have heq := acquire_wait_of_short st c.time c.tool c.cost hen hlt
        have hwpos : 0 < (acquire st c.time c.tool c.cost).1 := by
          rw [heq]
          exact div_pos (by linarith) hposE
        have hcontrib : (if (acquire st c.time c.tool c.cost).1 = 0
              ∧ a ≤ c.time ∧ c.time ≤ b then (c.cost : ℚ) else 0) = 0 := by
          rw [if_neg]
          rintro ⟨h0, -⟩
          rw [h0] at hwpos
          exact lt_irrefl 0 hwpos
        have hst2 : (acquire st c.time c.tool c.cost).2
            = { st with
                  tokens := 0
                  last_update := c.time
                    + ((c.cost : ℚ) - refilled_tokens st c.time) / effective_rps st c.tool } := by
          rw [heq]
        have hihyp := ih (acquire st c.time c.tool c.cost).2 c.time
          (by rw [hst2]; exact hen)
          (acquire_preserves_positive st c.time c.tool c.cost hpr)
          (acquire_preserves_inv st c.time c.tool c.cost hinv)
          (by
            rw [hst2]
            show c.time ≤ c.time + ((c.cost : ℚ) - refilled_tokens st c.time) / effective_rps st c.tool
            have : 0 ≤ ((c.cost : ℚ) - refilled_tokens st c.time) / effective_rps st c.tool :=
              le_of_lt (div_pos (by linarith) hposE)
            linarith)
          htb hhead htail
        rw [hst2] at hihyp
        have hihyp2 : admittedInWindow a b
            (runCalls (acquire st c.time c.tool c.cost).2 cs)
            ≤ st.rps * (b - c.time) := by
          rw [hst2]
          simpa using hihyp
        have hsplit : st.rps * (b - lb) = st.rps * (b - c.time) + st.rps * (c.time - lb) := by
          ring
        have hm : 0 ≤ st.rps * (c.time - lb) :=
          mul_nonneg (le_of_lt hpr.1) (by linarith)
        rw [hcontrib]
        linarith [hinv.1]
      · -- admitted branch: the call consumes `cost` tokens
        have heq := acquire_of_enough st c.time c.tool c.cost hen hlt
        have hst2 : (acquire st c.time c.tool c.cost).2
            = { st with
                  tokens := refilled_tokens st c.time - (c.cost : ℚ)
                  last_update := c.time } := by
          rw [heq]
        have hcontrib : (if (acquire st c.time c.tool c.cost).1 = 0
              ∧ a ≤ c.time ∧ c.time ≤ b then (c.cost : ℚ) else 0) ≤ (c.cost : ℚ) := by
          by_cases hc : (acquire st c.time c.tool c.cost).1 = 0 ∧ a ≤ c.time ∧ c.time ≤ b
          · rw [if_pos hc]
          · rw [if_neg hc]
            exact Nat.cast_nonneg c.cost
        have hihyp := ih (acquire st c.time c.tool c.cost).2 c.time
          (by rw [hst2]; exact hen)
          (acquire_preserves_positive st c.time c.tool c.cost hpr)
          (acquire_preserves_inv st c.time c.tool c.cost hinv)
          (by rw [hst2])
          htb hhead htail
        rw [hst2] at hihyp
        have hihyp2 : admittedInWindow a b
            (runCalls (acquire st c.time c.tool c.cost).2 cs)
            ≤ refilled_tokens st c.time - (c.cost : ℚ) + st.rps * (b - c.time) := by
          rw [hst2]
          simpa using hihyp
        have hsplit : st.rps * (b - lb) = st.rps * (b - c.time) + st.rps * (c.time - lb) := by
          ring
        linarith
    · -- the call (and, chronologically, every later one) is past the window
      have hlate : ∀ x ∈ cs, b < x.time := fun x hx =>
        lt_of_lt_of_le (not_le.mp htb) (hhead x hx)
      rw [admittedInWindow_zero_of_late a b cs _ hlate]
      rw [if_neg (by rintro ⟨-, -, hbt⟩; exact absurd hbt htb)]
      have hm : 0 ≤ st.rps * (b - lb) := mul_nonneg (le_of_lt hpr.1) (by linarith)
      linarith [hinv.1]

/-- Window bound for a trace that starts at or after the window opens: the
first refill is clamped at the burst capacity, and from then on refills are
paid for by elapsed time inside the window. -/
theorem admitted_bound_from (a b : ℚ) (calls : List Call) (st : GlobalRateLimiter)
    (hen : st.enabled = true) (hpr : PositiveRates st) (hinv : LimiterInv st)
    (hab : a ≤ b) (hge : ∀ c ∈ calls, a ≤ c.time)
    (hpw : calls.Pairwise (fun c c' => c.time ≤ c'.time)) :
    admittedInWindow a b (runCalls st calls)
      ≤ st.burst_capacity + st.rps * (b - a) := by
  have hbn : 0 ≤ st.burst_capacity := le_trans hinv.1 hinv.2
  have hm0 : 0 ≤ st.rps * (b - a) := mul_nonneg (le_of_lt hpr.1) (by linarith)
  cases calls with
  | nil =>
    rw [show runCalls st [] = [] from rfl, admittedInWindow_nil]
    linarith
  | cons c cs =>
    obtain ⟨hhead, htail⟩ := List.pairwise_cons.mp hpw
    have hposE : 0 < effective_rps st c.tool := hpr.effective c.tool
    have hat : a ≤ c.time := hge c (by simp)
    rw [show runCalls st (c :: cs)
        = (c, (acquire st c.time c.tool c.cost).1)
          :: runCalls (acquire st c.time c.tool c.cost).2 cs from rfl,
      admittedInWindow_cons]
    by_cases htb : c.time ≤ b
    · have hcap : refilled_tokens st c.time ≤ st.burst_capacity :=
        refilled_tokens_le_cap_of_inv st c.time hinv.2
      have hsplit : st.rps * (b - a) = st.rps * (b - c.time) + st.rps * (c.time - a) := by
        ring
      have hm1 : 0 ≤ st.rps * (c.time - a) := mul_nonneg (le_of_lt hpr.1) (by linarith)
      by_cases hlt : refilled_tokens st c.time < (c.cost : ℚ)
      · have heq := acquire_wait_of_short st c.time c.tool c.cost hen hlt
        have hwpos : 0 < (acquire st c.time c.tool c.cost).1 := by
          rw [heq]
          exact div_pos (by linarith) hposE
        have hcontrib : (if (acquire st c.time c.tool c.cost).1 = 0
              ∧ a ≤ c.time ∧ c.time ≤ b then (c.cost : ℚ) else 0) = 0 := by
          rw [if_neg]
          rintro ⟨h0, -⟩
          rw [h0] at hwpos
          exact lt_irrefl 0 hwpos
        have hst2 : (acquire st c.time c.tool c.cost).2
            = { st with
                  tokens := 0
                  last_update := c.time
                    + ((c.cost : ℚ) - refilled_tokens st c.time) / effective_rps st c.tool } := by
          rw [heq]
        have hihyp := admitted_bound_core a b cs (acquire st c.time c.tool c.cost).2 c.time
          (by rw [hst2]; exact hen)
          (acquire_preserves_positive st c.time c.tool c.cost hpr)
          (acquire_preserves_inv st c.time c.tool c.cost hinv)
          (by
            rw [hst2]
            show c.time ≤ c.time
              + ((c.cost : ℚ) - refilled_tokens st c.time) / effective_rps st c.tool
            have : 0 ≤ ((c.cost : ℚ) - refilled_tokens st c.time) / effective_rps st c.tool :=
              le_of_lt (div_pos (by linarith) hposE)
            linarith)
          htb hhead htail
        rw [hst2] at hihyp
        have hihyp2 : admittedInWindow a b
            (runCalls (acquire st c.time c.tool c.cost).2 cs)
            ≤ st.rps * (b - c.time) := by
          rw [hst2]
          simpa using hihyp
        rw [hcontrib]
        linarith
      · have heq := acquire_of_enough st c.time c.tool c.cost hen hlt
        have hst2 : (acquire st c.time c.tool c.cost).2
            = { st with
                  tokens := refilled_tokens st c.time - (c.cost : ℚ)
                  last_update := c.time } := by
          rw [heq]
        have hcontrib : (if (acquire st c.time c.tool c.cost).1 = 0
              ∧ a ≤ c.time ∧ c.time ≤ b then (c.cost : ℚ) else 0) ≤ (c.cost : ℚ) := by
          by_cases hc : (acquire st c.time c.tool c.cost).1 = 0 ∧ a ≤ c.time ∧ c.time ≤ b
          · rw [if_pos hc]
          · rw [if_neg hc]
            exact Nat.cast_nonneg c.cost
        have hihyp := admitted_bound_core a b cs (acquire st c.time c.tool c.cost).2 c.time
          (by rw [hst2]; exact hen)
          (acquire_preserves_positive st c.time c.tool c.cost hpr)
          (acquire_preserves_inv st c.time c.tool c.cost hinv)
          (by rw [hst2])
          htb hhead htail
        rw [hst2] at hihyp
        have hihyp2 : admittedInWindow a b
            (runCalls (acquire st c.time c.tool c.cost).2 cs)
            ≤ refilled_tokens st c.time - (c.cost : ℚ) + st.rps * (b - c.time) := by
          rw [hst2]
          simpa using hihyp
        linarith
    · have hlate : ∀ x ∈ cs, b < x.time := fun x hx =>
        lt_of_lt_of_le (not_le.mp htb) (hhead x hx)
      rw [admittedInWindow_zero_of_late a b cs _ hlate]
      rw [if_neg (by rintro ⟨-, -, hbt⟩; exact absurd hbt htb)]
      linarith

/-- Window bound for an arbitrary chronological trace: calls before the
window contribute nothing and only move the limiter to another valid
state. -/
theorem admitted_bound_full (a b : ℚ) (calls : List Call) :
    ∀ st : GlobalRateLimiter,
      st.enabled = true → PositiveRates st → LimiterInv st → a ≤ b →
      calls.Pairwise (fun c c' => c.time ≤ c'.time) →
      admittedInWindow a b (runCalls st calls)
        ≤ st.burst_capacity + st.rps * (b - a) := by
  induction calls with
  | nil =>
    intro st _ hpr hinv hab _
    rw [show runCalls st [] = [] from rfl, admittedInWindow_nil]
    have hbn : 0 ≤ st.burst_capacity := le_trans hinv.1 hinv.2
    have hm : 0 ≤ st.rps * (b - a) := mul_nonneg (le_of_lt hpr.1) (by linarith)
    linarith
  | cons c cs ih =>
    intro st hen hpr hinv hab hpw
    obtain ⟨hhead, htail⟩ := List.pairwise_cons.mp hpw
    by_cases ha : a ≤ c.time
    · refine admitted_bound_from a b (c :: cs) st hen hpr hinv hab ?_ hpw
      intro x hx
      rcases List.mem_cons.mp hx with rfl | hx'
      · exact ha
      · exact le_trans ha (hhead x hx')
    · rw [show runCalls st (c :: cs)
          = (c, (acquire st c.time c.tool c.cost).1)
            :: runCalls (acquire st c.time c.tool c.cost).2 cs from rfl,
        admittedInWindow_cons]
      rw [if_neg (by rintro ⟨-, hat, -⟩; exact ha hat)]
      have hrec := ih (acquire st c.time c.tool c.cost).2
        (by rw [(acquire_preserves_fields st c.time c.tool c.cost).2.2.2]; exact hen)
        (acquire_preserves_positive st c.time c.tool c.cost hpr)
        (acquire_preserves_inv st c.time c.tool c.cost hinv)
        hab htail
      obtain ⟨hr, hb, -, -⟩ := acquire_preserves_fields st c.time c.tool c.cost
      rw [hr, hb] at hrec
      linarith

/-- C6. Rate limiter admission bound: starting from a freshly constructed,
enabled limiter with global rate `rps`, burst capacity `burst` and any
tool-override table with positive rates, over any time window `[a, b]` the
token units admitted without wait by a chronological sequence of `acquire`
calls never exceed `burst + rps * (b - a)`. -/
theorem rate_limiter_admission_bound (rps burst t₀ : ℚ) (L : List (String × ℚ))
    (calls : List Call) (a b : ℚ)
    (hrps : 0 < rps) (hburst : 0 ≤ burst)
    (hL : ∀ t r, lookupToolLimit L t = some r → 0 < r)
    (hab : a ≤ b)
    (hchron : calls.Pairwise (fun c c' => c.time ≤ c'.time)) :
    admittedInWindow a b
        (runCalls { mkGlobalRateLimiter rps burst t₀ with tool_limits := L } calls)
      ≤ burst + rps * (b - a) := by
  have := admitted_bound_full a b calls
    { mkGlobalRateLimiter rps burst t₀ with tool_limits := L }
    rfl ⟨hrps, hL⟩ ⟨hburst, le_refl _⟩ hab hchron
  simpa [mkGlobalRateLimiter] using this

/-- Witness for C6 at a concrete input: one call of cost 1 at time 0 on a
fresh limiter with rate 1 and burst 2, window `[0, 1]`. -/
theorem rate_limiter_admission_bound_witness :
    admittedInWindow 0 1
        (runCalls { mkGlobalRateLimiter 1 2 0 with tool_limits := [] }
          [{ time := 0, tool := none, cost := 1 }])
      ≤ 2 + 1 * (1 - 0) :=
  rate_limiter_admission_bound 1 2 0 [] [{ time := 0, tool := none, cost := 1 }] 0 1
    (by norm_num) (by norm_num)
    (by intro t r h; simp [lookupToolLimit, List.find?] at h)
    (by norm_num) (by simp)

/-! ## `src/modules/recon.py`: stage resolution (`resolve_steps`) -/

/-- The stage flags of the parsed CLI arguments that `resolve_steps` reads. -/
structure Args where
  full : Bool
  subs : Bool
  alive : Bool
  ports_scan : Bool
  dirs : Bool
  params : Bool
  secrets : Bool
  nuclei : Bool
  screens : Bool
  deriving DecidableEq, Repr

/-- The complete canonical stage set returned for `--full`. -/
def fullSteps : Finset String :=
  {"subs", "alive", "ports_scan", "dirs", "params", "secrets", "nuclei", "screens"}

/-- The `steps.add(...)` chain of `resolve_steps`: the union of the
explicitly requested stages. -/
def requestedSteps (a : Args) : Finset String :=
  let s1 := if a.subs = true then insert "subs" (∅ : Finset String) else ∅
  let s2 := if a.alive = true then insert "alive" s1 else s1
  let s3 := if a.ports_scan = true then insert "ports_scan" s2 else s2
  let s4 := if a.dirs = true then insert "dirs" s3 else s3
  let s5 := if a.params = true then insert "params" s4 else s4
  let s6 := if a.secrets = true then insert "secrets" s5 else s5
  let s7 := if a.nuclei = true then insert "nuclei" s6 else s6
  if a.screens = true then insert "screens" s7 else s7

/-- `resolve_steps(args)`: `--full` expands to the whole chain; otherwise
the requested stages; an empty selection falls back to
`steps.add("subs"); steps.add("alive")`. -/
def resolve_steps (a : Args) : Finset String :=
  if a.full = true then fullSteps
  else if requestedSteps a = ∅ then {"subs", "alive"}
  else requestedSteps a

theorem mem_ite_insert (b : Bool) (x s : String) (t : Finset String) :
    (s ∈ if b = true then insert x t else t) ↔ (b = true ∧ s = x) ∨ s ∈ t := by
  cases b <;> simp

/-- Membership in the requested-step chain is exactly "some flag asked for
this stage". -/
theorem mem_requestedSteps (a : Args) (s : String) :
    s ∈ requestedSteps a ↔
      (a.screens = true ∧ s = "screens") ∨ (a.nuclei = true ∧ s = "nuclei")
      ∨ (a.secrets = true ∧ s = "secrets") ∨ (a.params = true ∧ s = "params")
      ∨ (a.dirs = true ∧ s = "dirs") ∨ (a.ports_scan = true ∧ s = "ports_scan")
      ∨ (a.alive = true ∧ s = "alive") ∨ (a.subs = true ∧ s = "subs") := by
  show (s ∈ if a.screens = true then insert "screens" _ else _) ↔ _
  rw [mem_ite_insert, mem_ite_insert, mem_ite_insert, mem_ite_insert, mem_ite_insert,
    mem_ite_insert, mem_ite_insert, mem_ite_insert]
  simp

/-- C8. Stage resolution: a `full` intent resolves to the complete
canonical stage set; otherwise the resolved set is exactly the union of
the explicitly requested stages; with no stage flag the resolved set is
exactly the baseline of discovery plus liveness; and the result is never
empty. -/
theorem resolve_steps_spec (a : Args) :
    (a.full = true → resolve_steps a = fullSteps) ∧
    (a.full = false → requestedSteps a ≠ ∅ → resolve_steps a = requestedSteps a) ∧
    (a.full = false → requestedSteps a = ∅ → resolve_steps a = {"subs", "alive"}) ∧
    resolve_steps a ≠ ∅ := by
  refine ⟨?_, ?_, ?_, ?_⟩
  · intro h
    simp [resolve_steps, h]
  · intro h hne
    simp [resolve_steps, h, hne]
  · intro h he
    simp [resolve_steps, h, he]
  · by_cases hf : a.full = true
    · simp only [resolve_steps, if_pos hf]
      decide
    · simp only [resolve_steps, if_neg hf]
      by_cases he : requestedSteps a = ∅
      · simp only [if_pos he]
        decide
      · simp only [if_neg he]
        exact he

/-- CLI arguments with no stage flag set at all. -/
def argsNone : Args :=
  ⟨false, false, false, false, false, false, false, false, false⟩

/-- CLI arguments requesting only `--dirs`. -/
def argsDirs : Args := { argsNone with dirs := true }

/-- Witness for C8 at concrete inputs: no flags at all resolves to the
baseline, and a lone `--dirs` resolves to exactly the requested set. -/
theorem resolve_steps_spec_witness :
    resolve_steps argsNone = {"subs", "alive"} ∧
    resolve_steps argsDirs = requestedSteps argsDirs :=
  ⟨(resolve_steps_spec argsNone).2.2.1 rfl (by decide),
   (resolve_steps_spec argsDirs).2.1 rfl (by decide)⟩

/-! ## `src/modules/recon.py`: orchestration (`run_cli` / `_run_wrapped`)

A stage body either returns (`ok`), raises an ordinary exception (`exc`),
or raises `SystemExit` (`sysExit`) — which is what every stage's missing
upstream-canonical-file precondition does (`raise SystemExit(...)`).
`_run_wrapped` logs `step_ok` / `step_fail` and swallows ordinary
exceptions, but re-raises `SystemExit` (`except SystemExit: raise`). -/

inductive StageOutcome where
  | ok
  | exc
  | sysExit
  deriving DecidableEq, Repr

inductive StageLog where
  | stepOk (name : String)
  | stepFail (name : String)
  deriving DecidableEq, Repr

/-- What a run leaves behind: the per-stage log entries of the stages that
ran, whether `run_meta.json` was written, and whether the run reached its
final `run_complete` (Completed) log line. -/
structure RunResult where
  log : List StageLog
  metaWritten : Bool
  completed : Bool
  deriving DecidableEq, Repr

/-- The fixed dependency order in which `run_cli` considers stages. -/
def stageOrder : List String :=
  ["subs", "alive", "ports_scan", "dirs", "params", "secrets", "nuclei", "screens"]

/-- The log entry `_run_wrapped` records for a stage that does not raise
`SystemExit`: `step_ok` on success, `step_fail` on a caught exception. -/
def logOf (behav : String → StageOutcome) (s : String) : StageLog :=
  match behav s with
  | .exc => .stepFail s
  | _ => .stepOk s

/-- The selected stages in sequence: `_run_wrapped` isolates `ok`/`exc`
outcomes and continues; `sysExit` propagates, aborting the rest of the run
body, so `run_meta.json` is never written and `run_complete` never logged. -/
def runSteps (behav : String → StageOutcome) : List String → RunResult
  | [] => { log := [], metaWritten := true, completed := true }
  | s :: rest =>
    match behav s with
    | .sysExit => { log := [], metaWritten := false, completed := false }
    | .ok =>
      let r := runSteps behav rest
      { log := .stepOk s :: r.log, metaWritten := r.metaWritten, completed := r.completed }
    | .exc =>
      let r := runSteps behav rest
      { log := .stepFail s :: r.log, metaWritten := r.metaWritten, completed := r.completed }

/-- `run_cli`: execute the resolved stages in the fixed order, then write
`run_meta.json` and log `run_complete`. -/
def run_cli (steps : Finset String) (behav : String → StageOutcome) : RunResult :=
  runSteps behav (stageOrder.filter (fun s => decide (s ∈ steps)))

/-- Lines 313-315 of `recon.py`: `run_alive_check` raises
`SystemExit("Missing subs.txt; run --subs first")` when the upstream
canonical file is absent, and only otherwise proceeds with its body. -/
def aliveOutcome (subsTxtExists : Bool) (rest : StageOutcome) : StageOutcome :=
  if subsTxtExists then rest else .sysExit

/-- The behaviour of a run in which `subs.txt` is absent and every other
stage body would succeed. -/
def behavMissingSubs : String → StageOutcome :=
  fun s => if s = "alive" then aliveOutcome false .ok else .ok

theorem runSteps_no_sysExit (behav : String → StageOutcome) (l : List String)
    (h : ∀ s ∈ l, behav s ≠ .sysExit) :
    runSteps behav l = { log := l.map (logOf behav), metaWritten := true, completed := true } := by
  induction l with
  | nil => rfl
  | cons s rest ih =>
    have hs := h s (by simp)
    have hrest := ih (fun x hx => h x (List.mem_cons_of_mem _ hx))
    cases hb : behav s with
    | sysExit => exact absurd hb hs
    | ok =>
      show (match behav s with
        | .sysExit => _ | .ok => _ | .exc => _) = _
      rw [hb, hrest]
      simp [logOf, hb]
    | exc =>
      show (match behav s with
        | .sysExit => _ | .ok => _ | .exc => _) = _
      rw [hb, hrest]
      simp [logOf, hb]

theorem runSteps_with_sysExit (behav : String → StageOutcome) (l : List String)
    (h : ∃ s ∈ l, behav s = .sysExit) :
    runSteps behav l
      = { log := (l.takeWhile (fun s => decide (behav s ≠ .sysExit))).map (logOf behav)
          metaWritten := false
          completed := false } := by
  induction l with
  | nil => simp at h
  | cons s rest ih =>
    cases hb : behav s with
    | sysExit =>
      show (match behav s with
        | .sysExit => _ | .ok => _ | .exc => _) = _
      rw [hb]
      rw [List.takeWhile_cons_of_neg (by simp [hb])]
      rfl
    | ok =>
      obtain ⟨x, hx, hxe⟩ := h
      rcases List.mem_cons.mp hx with rfl | hx'
      · rw [hb] at hxe; cases hxe
      · have hrest := ih ⟨x, hx', hxe⟩
        show (match behav s with
          | .sysExit => _ | .ok => _ | .exc => _) = _
        rw [hb, hrest]
        rw [List.takeWhile_cons_of_pos (by simp [hb])]
        simp [logOf, hb]
    | exc =>
      obtain ⟨x, hx, hxe⟩ := h
      rcases List.mem_cons.mp hx with rfl | hx'
      · rw [hb] at hxe; cases hxe
      · have hrest := ih ⟨x, hx', hxe⟩
        show (match behav s with
          | .sysExit => _ | .ok => _ | .exc => _) = _
        rw [hb, hrest]
        rw [List.takeWhile_cons_of_pos (by simp [hb])]
        simp [logOf, hb]

/-- C1 counterexample: in a plan selecting the `alive` and `ports_scan`
stages with `subs.txt` absent, the `SystemExit` raised by the alive stage's
precondition is re-raised by `_run_wrapped`: `ports_scan` never executes,
`run_meta.json` is not written, and the run does not reach Completed —
contrary to the claim's "that stage alone is reported and skipped". -/
theorem failure_isolation_counterexample :
    behavMissingSubs "alive" = aliveOutcome false .ok ∧
    run_cli {"alive", "ports_scan"} behavMissingSubs
      = { log := [], metaWritten := false, completed := false } := by
  constructor
  · rfl
  · decide

/-- C1 amended: a stage failing with an ordinary exception is isolated —
it is reported (`step_fail`), later stages still execute, and the run
reaches Completed with `run_meta.json` written; but a stage whose missing
upstream canonical file raises `SystemExit` aborts the run: the stages
before it are the only ones that ran, nothing later executes, and the run
ends without Completed and without `run_meta.json`. -/
theorem failure_isolation_amended (steps : Finset String) (behav : String → StageOutcome) :
    ((∀ s ∈ stageOrder.filter (fun s => decide (s ∈ steps)), behav s ≠ .sysExit) →
      run_cli steps behav
        = { log := (stageOrder.filter (fun s => decide (s ∈ steps))).map (logOf behav)
            metaWritten := true
            completed := true }) ∧
    ((∃ s ∈ stageOrder.filter (fun s => decide (s ∈ steps)), behav s = .sysExit) →
      run_cli steps behav
        = { log := ((stageOrder.filter (fun s => decide (s ∈ steps))).takeWhile
              (fun s => decide (behav s ≠ .sysExit))).map (logOf behav)
            metaWritten := false
            completed := false }) :=
  ⟨fun h => runSteps_no_sysExit behav _ h,
   fun h => runSteps_with_sysExit behav _ h⟩

/-- Witness for C1's amended theorem: with `subs` raising an ordinary
exception, the run still reports it, runs `alive`, and completes with its
manifest; with `subs.txt` missing, the run aborts at `alive` with no
manifest. -/
theorem failure_isolation_amended_witness :
    run_cli {"subs", "alive"} (fun s => if s = "subs" then .exc else .ok)
      = { log := [.stepFail "subs", .stepOk "alive"], metaWritten := true, completed := true } ∧
    run_cli {"alive", "ports_scan"} behavMissingSubs
      = { log := [], metaWritten := false, completed := false } := by
  constructor
  · rw [(failure_isolation_amended {"subs", "alive"}
      (fun s => if s = "subs" then .exc else .ok)).1 (by decide)]
    decide
  · rw [(failure_isolation_amended {"alive", "ports_scan"} behavMissingSubs).2 (by decide)]
    decide

/-! ## `src/modules/recon.py`: incremental target selection (`run_alive_check`)

The target-computation slice of `run_alive_check` (lines 321-355): which
subdomain list is handed to `httpx`, given the project's history
directories and today's date.  A history entry is a per-day directory name
together with the content of its `httpx_alive.txt`, when that file exists. -/

structure HistEntry where
  name : String
  alive : Option (List String)
  deriving DecidableEq, Repr

/-- Python string comparison: lexicographic on code points. -/
def lexLtChars : List Char → List Char → Bool
  | [], [] => false
  | [], _ :: _ => true
  | _ :: _, [] => false
  | a :: as, b :: bs =>
    if a < b then true
    else if b < a then false
    else lexLtChars as bs

def strLt (a b : String) : Bool := lexLtChars a.data b.data

/-- Python's `max` over a list of strings (the most recent ISO date). -/
def pyMaxStr (l : List String) : String :=
  l.foldl (fun acc s => if strLt acc s then s else acc) ""

/-- `alive_history_dirs`: the history directories containing
`httpx_alive.txt` (line 322). -/
def aliveMarkerDirs (history : List HistEntry) : List String :=
  (history.filter (fun e => e.alive.isSome)).map (fun e => e.name)

/-- Reading a named history directory's `httpx_alive.txt`. -/
def lookupAlive (history : List HistEntry) (d : String) : Option (List String) :=
  match history.find? (fun e => e.name = d) with
  | some e => e.alive
  | none => none

/-- The target list handed to `httpx` by `run_alive_check` once its
preconditions passed: `none` when the stage returns without any external
invocation ("No new subdomains to check"), otherwise the content of the
file passed via `-l`.  Mirrors lines 321-355: the incremental branch is
taken only when more than one history directory carries `httpx_alive.txt`;
the previous snapshot is the lexicographically greatest non-today marker
directory; the new-subs list keeps each line of `subs.txt` not present in
that snapshot; a non-empty new-subs list is written (stripped) to a temp
file which becomes the target. -/
def run_alive_check_targets (history : List HistEntry) (today : String)
    (subs : List String) : Option (List String) :=
  let markerDirs := aliveMarkerDirs history
  if 1 < markerDirs.length then
    let previousDirs := markerDirs.filter (fun d => decide (d ≠ today))
    if previousDirs = [] then some subs
    else
      let previousDir := pyMaxStr previousDirs
      let previouslyAlive := (lookupAlive history previousDir).getD []
      let newSubs := subs.filter (fun sub => decide (sub ∉ previouslyAlive))
      if newSubs = [] then none
      else some (write_lines newSubs)
  else some subs

/-- C3 at the failing input: the second-ever run.  History holds exactly
one directory with `httpx_alive.txt` — yesterday's — and today's directory
without one; `subs.txt` holds one already-checked and one new subdomain.
A qualifying previous snapshot exists (a non-today marker directory), and
`C \ P = ["b.example.com"]` is a strict subset of `C`; yet the code's
`len(alive_history_dirs) > 1` guard fails, so the full candidate set is
handed to `httpx` (the "First alive check run" branch). -/
theorem alive_incremental_second_run_eval :
    aliveMarkerDirs
        [⟨"2026-10-11", some ["https://a.example.com"]⟩, ⟨"2026-10-12", none⟩]
      = ["2026-10-11"] ∧
    ("2026-10-11" ≠ "2026-10-12" ∧
      lookupAlive [⟨"2026-10-11", some ["https://a.example.com"]⟩, ⟨"2026-10-12", none⟩]
        "2026-10-11" = some ["https://a.example.com"]) ∧
    (["https://a.example.com", "https://b.example.com"].filter
        (fun sub => decide (sub ∉ (["https://a.example.com"] : List String)))
      = ["https://b.example.com"]) ∧
    run_alive_check_targets
        [⟨"2026-10-11", some ["https://a.example.com"]⟩, ⟨"2026-10-12", none⟩]
        "2026-10-12"
        ["https://a.example.com", "https://b.example.com"]
      = some ["https://a.example.com", "https://b.example.com"] := by
  refine ⟨rfl, ⟨by decide, rfl⟩, by decide, ?_⟩
  decide

end Recon
